import Mathlib

/-!
# A shallow embedding of the `uzid` identifier generator

This file embeds the TypeScript source `src/index.ts` of the `uzid` library
in Lean and proves the testable properties of its specification against that
embedding.

Modelling conventions:
* JS strings are `List Char` (all characters involved are ASCII, so UTF-16
  code-unit order coincides with `Char` order, and JS `<` on strings is the
  lexicographic order on `List Char`).
* JS numbers reaching arithmetic are modelled as `Nat` where the source can
  only produce non-negative integers, and as `Rat` (with `den = 1` standing
  for `Number.isInteger`) where callers may pass arbitrary numeric values.
* `Date.now()` and `Math.random()` draws enter as explicit parameters.
* Fallible operations return `Option`/`Except`; a thrown exception is an
  `Except.error`, an internal `throw`/NaN inside decoding is `none`.
-/

/-- The TS union type `36 | 62` of bases a constructed instance can hold. -/
inductive Base where
  | b36
  | b62
deriving DecidableEq

/-- Numeric value of a base. -/
def Base.val : Base → Nat
  | .b36 => 36
  | .b62 => 62

/-- `this.chars` after construction: the 36-character alphabet
`"0123456789abcdefghijklmnopqrstuvwxyz"` (src/index.ts:16), with
`"ABCDEFGHIJKLMNOPQRSTUVWXYZ"` appended when the base is 62
(src/index.ts:42). -/
def chars (b : Base) : List Char :=
  "0123456789abcdefghijklmnopqrstuvwxyz".data ++
    (if b = Base.b62 then "ABCDEFGHIJKLMNOPQRSTUVWXYZ".data else [])

/-- The digit-extraction loop of `toBaseString` (the `while (n > 0)` loop,
src/index.ts:52-55), returning digit values most-significant first.  The
loop strictly shrinks `n`, so any `fuel ≥ n` lets it run to completion. -/
def toDigitsAux (b : Nat) : Nat → Nat → List Nat
  | 0, _ => []
  | fuel + 1, n => if n = 0 then [] else toDigitsAux b fuel (n / b) ++ [n % b]

/-- Digits of `n` in base `b`, most significant first (empty for `n = 0`). -/
def toDigits (b : Base) (n : Nat) : List Nat :=
  toDigitsAux b.val n n

/-- `toBaseString` (src/index.ts:45-57).  For base 36 the source calls
`num.toString(36)`, which is the standard positional base-36 rendering over
`0-9a-z`; for base 62 it runs the digit loop over `this.chars` with `0`
special-cased to `"0"`.  Both coincide with the digit loop over the base's
alphabet together with the `0 ↦ "0"` case. -/
def toBaseString (num : Nat) (b : Base) : List Char :=
  if num = 0 then ['0']
  else (toDigits b num).map (fun d => (chars b).getD d ' ')

/-- Digit lookup `this.chars.indexOf(char)` (src/index.ts:65); `none` models
the `-1` sentinel on which the source throws. -/
def charIndex (b : Base) (c : Char) : Option Nat :=
  (chars b).findIdx? (· == c)

/-- Whether `parseInt(·, 36)` accepts `c` as a digit (case-insensitive). -/
def isRadix36Digit (c : Char) : Bool :=
  (charIndex Base.b36 c.toLower).isSome

/-- Digit value used by `parseInt(·, 36)` (0 when not a digit). -/
def radix36Val (c : Char) : Nat :=
  (charIndex Base.b36 c.toLower).getD 0

/-- JS `parseInt(str, 36)` (src/index.ts:60) on strings without leading
whitespace or sign: it reads the longest leading run of base-36 digits
(case-insensitively) and yields NaN — modelled as `none` — when that run is
empty.  Every string this program feeds it has already passed the alphabet
check of `verify` or was produced by `toBaseString`, so whitespace and sign
handling are unreachable and left out. -/
def jsParseInt36 (s : List Char) : Option Nat :=
  let ds := s.takeWhile isRadix36Digit
  if ds.isEmpty then none
  else some (ds.foldl (fun a c => a * 36 + radix36Val c) 0)

/-- One loop step of the base-62 branch of `fromBaseString`
(src/index.ts:63-70): `out = out * base + value`, with the `value === -1`
throw modelled as `none`. -/
def b62Step (out : Nat) (c : Char) : Option Nat :=
  match charIndex Base.b62 c with
  | none => none
  | some v => some (out * 62 + v)

/-- `fromBaseString` (src/index.ts:59-72): base 36 delegates to
`parseInt(str, 36)`; base 62 folds `out = out * base + value` over the digit
values left to right, throwing (`none`) on a character outside `chars`. -/
def fromBaseString (s : List Char) (b : Base) : Option Nat :=
  match b with
  | Base.b36 => jsParseInt36 s
  | Base.b62 => s.foldlM b62Step 0

/-- The state of a constructed `Uzid` instance.  `this.chars` is a function
of `base` (src/index.ts:16,42), so it is not stored separately; `precision`
holds the string the constructor stored (`undefined` is `none`). -/
structure Uzid where
  pfx : List Char
  base : Base
  length : Nat
  precision : Option (List Char)
deriving DecidableEq

/-- The factor `this.precision === "ms" ? 1 : 1000` (src/index.ts:75,111). -/
def Uzid.scale (u : Uzid) : Nat :=
  if u.precision = some ['m', 's'] then 1 else 1000

/-- `random()` (src/index.ts:119-125): `this.length` draws from the alphabet;
`rand i` is the i-th value of `Math.floor(Math.random() * this.chars.length)`. -/
def Uzid.random (u : Uzid) (rand : Nat → Nat) : List Char :=
  (List.range u.length).map (fun i => (chars u.base).getD (rand i) ' ')

/-- `single()` (src/index.ts:74-77): prefix, then the encoded timestamp
`Math.floor(Date.now() / (precision === "ms" ? 1 : 1000))`, then the random
suffix.  `now` is the value `Date.now()` returned, in milliseconds. -/
def Uzid.single (u : Uzid) (now : Nat) (rand : Nat → Nat) : List Char :=
  u.pfx ++ toBaseString (now / u.scale) u.base ++ u.random rand

/-- JS `String.prototype.startsWith` restricted to a literal search string. -/
def startsWith : List Char → List Char → Bool
  | [], _ => true
  | _ :: _, [] => false
  | p :: ps, c :: cs => p == c && startsWith ps cs

/-- The ECMAScript time-value bound: `new Date(m).getTime()` is NaN exactly
when `|m| >` 8,640,000,000,000,000 milliseconds; `Date.now()` itself always
lies inside this range. -/
def maxTimeValue : Nat := 8640000000000000

/-- `verify(id)` (src/index.ts:85-117), step for step: prefix check, empty
remainder check, alphabet check of every remaining character, suffix-length
check of `slice(-length)`, decode of the leading part, and validity of
`new Date(decoded * scale)`.  A decode throw or NaN result yields `false`. -/
def Uzid.verify (u : Uzid) (id : List Char) : Bool :=
  if id.length = 0 || !(startsWith u.pfx id) then false
  else
    let rest := id.drop u.pfx.length
    if rest.length = 0 then false
    else if !(rest.all (fun c => (chars u.base).contains c)) then false
    else
      let randomPart := if u.length = 0 then [] else rest.drop (rest.length - u.length)
      if randomPart.length ≠ u.length then false
      else
        let tsPart := if u.length = 0 then rest else rest.take (rest.length - u.length)
        match fromBaseString tsPart u.base with
        | none => false
        | some ts => decide (ts * u.scale ≤ maxTimeValue)

/-- The four distinct `Error` messages the source throws. -/
inductive UzidError where
  | invalidPrecision
  | invalidBase
  | invalidLength
  | invalidCount
deriving DecidableEq

/-- The raw constructor options: `none` is an absent (`undefined`) field;
`base` is any number a caller might pass, `length` any number (`Rat` so that
`Number.isInteger` is expressible). -/
structure UzidOptions where
  pfx : Option (List Char) := none
  base : Option Int := none
  length : Option Rat := none
  precision : Option (List Char) := none

/-- `options.prefix || ""` (src/index.ts:20): the empty string is falsy. -/
def jsOrStr (o : Option (List Char)) (d : List Char) : List Char :=
  match o with
  | none => d
  | some s => if s.isEmpty then d else s

/-- `options.base || 36` (src/index.ts:21): `0` is falsy and falls back to
the default (as would NaN, which the integer model leaves out). -/
def jsOrInt (o : Option Int) (d : Int) : Int :=
  match o with
  | none => d
  | some n => if n = 0 then d else n

/-- JS truthiness of an optional string (src/index.ts:24). -/
def truthyStr (o : Option (List Char)) : Bool :=
  match o with
  | none => false
  | some s => !s.isEmpty

/-- The constructor (src/index.ts:19-43): defaulting of `prefix`, `base` and
`length`, then the precision, base and length checks in source order. -/
def mkUzid (o : UzidOptions) : Except UzidError Uzid :=
  let p := jsOrStr o.pfx []
  let b := jsOrInt o.base 36
  let len := o.length.getD 4
  if truthyStr o.precision && !(o.precision = some ['m', 's'] : Bool) then
    Except.error UzidError.invalidPrecision
  else if b ≠ 36 ∧ b ≠ 62 then
    Except.error UzidError.invalidBase
  else if ¬ (len.den = 1 ∧ 0 ≤ len ∧ len ≤ 20) then
    Except.error UzidError.invalidLength
  else
    Except.ok { pfx := p, base := if b = 62 then Base.b62 else Base.b36,
                length := len.num.toNat, precision := o.precision }

/-- JS `Set.prototype.add`: keeps insertion order, ignores duplicates. -/
def setAdd (s : List (List Char)) (a : List Char) : List (List Char) :=
  if a ∈ s then s else s ++ [a]

/-- The `while (ids.size < count)` loop of `multiple` (src/index.ts:131-134).
`gen i` is the result of the i-th call to `this.single()`; `fuel` bounds how
many iterations are unfolded (the source loop is unbounded; `none` means it
has not finished within `fuel` iterations). -/
def multipleLoop (gen : Nat → List Char) (count : Nat) :
    Nat → Nat → List (List Char) → Option (List (List Char))
  | 0, _, s => if count ≤ s.length then some s else none
  | fuel + 1, i, s =>
    if count ≤ s.length then some s
    else multipleLoop gen count fuel (i + 1) (setAdd s (gen i))

/-- `Array.from(ids).sort()` (src/index.ts:135): the default comparator sorts
strings ascending by UTF-16 code units, i.e. by `≤` on `List Char`.  On the
distinct elements of a set the ascending permutation is unique, so insertion
sort computes exactly it. -/
def sortJS (l : List (List Char)) : List (List Char) :=
  List.insertionSort (· ≤ ·) l

/-- `multiple(count)` (src/index.ts:127-136): the `InvalidCount` guard, then
the dedup-until-`count` loop over successive `single()` results, then the
sort.  `nows i` and `rands i` are the clock value and random draws seen by
the i-th `single()` call. -/
def Uzid.multiple (u : Uzid) (count : Rat) (nows : Nat → Nat)
    (rands : Nat → Nat → Nat) (fuel : Nat) :
    Except UzidError (Option (List (List Char))) :=
  if ¬ (count.den = 1) ∨ count < 2 then Except.error UzidError.invalidCount
  else Except.ok ((multipleLoop (fun i => u.single (nows i) (rands i))
    count.num.toNat fuel 0 []).map sortJS)

/-- Result of the overloaded `generate` (src/index.ts:79-83). -/
inductive GenResult where
  | one (id : List Char)
  | many (ids : Option (List (List Char)))
deriving DecidableEq

/-- `generate` (src/index.ts:79-83): with no argument it returns `single()`,
otherwise it delegates to `multiple(count)`. -/
def Uzid.generate (u : Uzid) (count? : Option Rat) (nows : Nat → Nat)
    (rands : Nat → Nat → Nat) (fuel : Nat) : Except UzidError GenResult :=
  match count? with
  | none => Except.ok (GenResult.one (u.single (nows 0) (rands 0)))
  | some c => (u.multiple c nows rands fuel).map GenResult.many

/-! ### Radix converter correctness -/

/-- Value of a most-significant-first digit list (accumulator form of the
decode fold). -/
def ofDigitsBE (b : Nat) (l : List Nat) : Nat :=
  l.foldl (fun a d => a * b + d) 0

theorem ofDigitsBE_append (b : Nat) (l : List Nat) (d : Nat) :
    ofDigitsBE b (l ++ [d]) = ofDigitsBE b l * b + d := by
  simp [ofDigitsBE, List.foldl_append]

theorem toDigitsAux_lt (b : Nat) (hb : 0 < b) :
    ∀ fuel n, ∀ d ∈ toDigitsAux b fuel n, d < b := by
  intro fuel
  induction fuel with
  | zero => intro n d hd; simp [toDigitsAux] at hd
  | succ fuel ih =>
    intro n d hd
    by_cases hn : n = 0
    · simp [toDigitsAux, hn] at hd
    · simp only [toDigitsAux, if_neg hn, List.mem_append, List.mem_singleton] at hd
      rcases hd with hd | hd
      · exact ih _ d hd
      · exact hd ▸ Nat.mod_lt _ hb

theorem toDigitsAux_value (b : Nat) (hb : 2 ≤ b) :
    ∀ fuel n, n ≤ fuel → ofDigitsBE b (toDigitsAux b fuel n) = n := by
  intro fuel
  induction fuel with
  | zero =>
    intro n hn
    have : n = 0 := Nat.le_zero.mp hn
    simp [this, toDigitsAux, ofDigitsBE]
  | succ fuel ih =>
    intro n hn
    by_cases hn0 : n = 0
    · simp [hn0, toDigitsAux, ofDigitsBE]
    · have hdiv : n / b < n := Nat.div_lt_self (Nat.pos_of_ne_zero hn0) (by omega)
      have hle : n / b ≤ fuel := by omega
      simp only [toDigitsAux, if_neg hn0, ofDigitsBE_append, ih _ hle]
      rw [Nat.mul_comm]
      exact Nat.div_add_mod n b

/-- The digit list actually rendered by `toBaseString`: `0` renders as the
single digit `0`, any other value as its digit-loop output. -/
def digitsOf (b : Base) (n : Nat) : List Nat :=
  if n = 0 then [0] else toDigits b n

theorem base_two_le (b : Base) : 2 ≤ b.val := by
  cases b <;> simp [Base.val]

theorem digitsOf_lt (b : Base) (n : Nat) : ∀ d ∈ digitsOf b n, d < b.val := by
  intro d hd
  by_cases hn : n = 0
  · have hb := base_two_le b
    simp [digitsOf, hn] at hd
    omega
  · simp only [digitsOf, if_neg hn] at hd
    exact toDigitsAux_lt b.val (by have := base_two_le b; omega) n n d hd

theorem digitsOf_value (b : Base) (n : Nat) :
    ofDigitsBE b.val (digitsOf b n) = n := by
  by_cases hn : n = 0
  · simp [digitsOf, hn, ofDigitsBE]
  · simp only [digitsOf, if_neg hn, toDigits]
    exact toDigitsAux_value b.val (base_two_le b) n n le_rfl

theorem digitsOf_ne_nil (b : Base) (n : Nat) : digitsOf b n ≠ [] := by
  by_cases hn : n = 0
  · simp [digitsOf, hn]
  · simp only [digitsOf, if_neg hn, toDigits]
    cases n with
    | zero => exact absurd rfl hn
    | succ m =>
      simp only [toDigitsAux, if_neg hn]
      exact List.append_ne_nil_of_right_ne_nil _ (by simp)

theorem toBaseString_eq_map (n : Nat) (b : Base) :
    toBaseString n b = (digitsOf b n).map (fun d => (chars b).getD d ' ') := by
  by_cases hn : n = 0
  · subst hn
    cases b <;> rfl
  · simp [toBaseString, digitsOf, hn, toDigits]

theorem chars_length (b : Base) : (chars b).length = b.val := by
  cases b <;> rfl

theorem charIndex_getD_b62 :
    ∀ d, d < 62 → charIndex Base.b62 ((chars Base.b62).getD d ' ') = some d := by
  decide

theorem isRadix36Digit_getD :
    ∀ d, d < 36 → isRadix36Digit ((chars Base.b36).getD d ' ') = true := by
  decide

theorem radix36Val_getD :
    ∀ d, d < 36 → radix36Val ((chars Base.b36).getD d ' ') = d := by
  decide

theorem foldlM_b62_map (l : List Nat) :
    ∀ acc : Nat, (∀ d ∈ l, d < 62) →
      List.foldlM b62Step acc (l.map (fun d => (chars Base.b62).getD d ' '))
        = some (l.foldl (fun a d => a * 62 + d) acc) := by
  induction l with
  | nil => intro acc _; rfl
  | cons d r ih =>
    intro acc hl
    have hd : d < 62 := hl d (by simp)
    simp only [List.map_cons, List.foldlM_cons, b62Step, charIndex_getD_b62 d hd]
    exact ih _ (fun x hx => hl x (by simp [hx]))

theorem foldl_radix36_map (l : List Nat) :
    ∀ acc : Nat, (∀ d ∈ l, d < 36) →
      List.foldl (fun a c => a * 36 + radix36Val c) acc
        (l.map (fun d => (chars Base.b36).getD d ' '))
        = l.foldl (fun a d => a * 36 + d) acc := by
  induction l with
  | nil => intro acc _; rfl
  | cons d r ih =>
    intro acc hl
    have hd : d < 36 := hl d (by simp)
    simp only [List.map_cons, List.foldl_cons, radix36Val_getD d hd]
    exact ih _ (fun x hx => hl x (by simp [hx]))

theorem jsParseInt36_map (l : List Nat) (hne : l ≠ []) (hl : ∀ d ∈ l, d < 36) :
    jsParseInt36 (l.map (fun d => (chars Base.b36).getD d ' '))
      = some (ofDigitsBE 36 l) := by
  have htake : (l.map (fun d => (chars Base.b36).getD d ' ')).takeWhile
      isRadix36Digit = l.map (fun d => (chars Base.b36).getD d ' ') := by
    rw [List.takeWhile_eq_self_iff]
    intro c hc
    rcases List.mem_map.mp hc with ⟨d, hd, rfl⟩
    exact isRadix36Digit_getD d (hl d hd)
  have hempty : (l.map (fun d => (chars Base.b36).getD d ' ')).isEmpty = false := by
    cases l with
    | nil => exact absurd rfl hne
    | cons d r => rfl
  simp only [jsParseInt36, htake, hempty, Bool.false_eq_true, if_false]
  rw [foldl_radix36_map l 0 hl]
  rfl

/-- Decoding inverts encoding: the shared round-trip fact behind the
self-verification and round-trip properties. -/
theorem decode_toBaseString (n : Nat) (b : Base) :
    fromBaseString (toBaseString n b) b = some n := by
  rw [toBaseString_eq_map]
  cases b with
  | b36 =>
    show jsParseInt36 _ = some n
    rw [jsParseInt36_map _ (digitsOf_ne_nil _ _) (digitsOf_lt Base.b36 n)]
    exact congrArg some (digitsOf_value Base.b36 n)
  | b62 =>
    show List.foldlM b62Step 0 _ = some n
    rw [foldlM_b62_map _ 0 (digitsOf_lt Base.b62 n)]
    exact congrArg some (digitsOf_value Base.b62 n)

/-! ### Alphabet closure and basic string facts -/

theorem getD_mem_chars (b : Base) {d : Nat} (hd : d < b.val) :
    (chars b).getD d ' ' ∈ chars b := by
  have hlen : d < (chars b).length := by rw [chars_length]; exact hd
  simp only [List.getD_eq_getElem?_getD, List.getElem?_eq_getElem hlen,
    Option.getD_some]
  exact List.getElem_mem hlen

theorem toBaseString_ne_nil (n : Nat) (b : Base) : toBaseString n b ≠ [] := by
  rw [toBaseString_eq_map]
  simp [digitsOf_ne_nil]

theorem toBaseString_mem_chars (n : Nat) (b : Base) :
    ∀ c ∈ toBaseString n b, c ∈ chars b := by
  rw [toBaseString_eq_map]
  intro c hc
  rcases List.mem_map.mp hc with ⟨d, hd, rfl⟩
  exact getD_mem_chars b (digitsOf_lt b n d hd)

theorem random_length (u : Uzid) (rand : Nat → Nat) :
    (u.random rand).length = u.length := by
  simp [Uzid.random]

theorem random_mem_chars (u : Uzid) (rand : Nat → Nat)
    (hrand : ∀ i, rand i < (chars u.base).length) :
    ∀ c ∈ u.random rand, c ∈ chars u.base := by
  intro c hc
  rcases List.mem_map.mp hc with ⟨i, _, rfl⟩
  have hi : rand i < u.base.val := by rw [← chars_length]; exact hrand i
  exact getD_mem_chars u.base hi

theorem startsWith_append (p t : List Char) : startsWith p (p ++ t) = true := by
  induction p with
  | nil => rfl
  | cons a ps ih => simp [startsWith, ih]

theorem startsWith_nil (l : List Char) : startsWith [] l = true := rfl

theorem startsWith_cons_nil (a : Char) (ps : List Char) :
    startsWith (a :: ps) [] = false := rfl

theorem startsWith_cons_cons (a b : Char) (ps ls : List Char) :
    startsWith (a :: ps) (b :: ls) = (a == b && startsWith ps ls) := rfl

theorem startsWith_iff (p l : List Char) : startsWith p l = true ↔ p <+: l := by
  induction p generalizing l with
  | nil => simp [startsWith_nil]
  | cons a ps ih =>
    cases l with
    | nil => simp [startsWith_cons_nil]
    | cons b ls =>
      simp only [startsWith_cons_cons, Bool.and_eq_true, beq_iff_eq, ih,
        List.cons_prefix_cons]

/-- `verify` accepts any identifier assembled from the instance's own prefix,
a non-empty alphabet-only encoding whose decode lands inside the `Date`
range, and an alphabet-only suffix of the configured length. -/
theorem verify_append (u : Uzid) (enc sfx : List Char)
    (henc_ne : enc ≠ [])
    (hchars : ∀ c ∈ enc, c ∈ chars u.base)
    (hsfxchars : ∀ c ∈ sfx, c ∈ chars u.base)
    (hsfx_len : sfx.length = u.length)
    (t : Nat) (hdec : fromBaseString enc u.base = some t)
    (ht : t * u.scale ≤ maxTimeValue) :
    u.verify (u.pfx ++ (enc ++ sfx)) = true := by
  have hrest : (u.pfx ++ (enc ++ sfx)).drop u.pfx.length = enc ++ sfx :=
    List.drop_left u.pfx (enc ++ sfx)
  have henl : 0 < enc.length := List.length_pos.mpr henc_ne
  have hlen0 : ¬ (u.pfx ++ (enc ++ sfx)).length = 0 := by
    simp only [List.length_append]
    omega
  have hsw : startsWith u.pfx (u.pfx ++ (enc ++ sfx)) = true :=
    startsWith_append u.pfx (enc ++ sfx)
  have hrlen0 : ¬ (enc ++ sfx).length = 0 := by
    simp only [List.length_append]
    omega
  have hall : (enc ++ sfx).all (fun c => (chars u.base).contains c) = true := by
    rw [List.all_eq_true]
    intro c hc
    rcases List.mem_append.mp hc with h | h
    · simpa [List.contains] using hchars c h
    · simpa [List.contains] using hsfxchars c h
  have hrplen : (enc ++ sfx).length - u.length = enc.length := by
    rw [List.length_append, hsfx_len]
    omega
  have hdrop2 : (enc ++ sfx).drop enc.length = sfx := List.drop_left enc sfx
  have htake2 : (enc ++ sfx).take enc.length = enc := List.take_left enc sfx
  by_cases hL : u.length = 0
  · have hsfx_nil : sfx = [] := List.length_eq_zero.mp (hsfx_len.trans hL)
    simp [Uzid.verify, hrest, hlen0, hsw, hall, hL, hsfx_nil, hdec, ht]
    exact ⟨⟨Or.inr henc_ne, startsWith_append u.pfx enc⟩, henc_ne, hchars⟩
  · simp [Uzid.verify, hrest, hlen0, hsw, hall, hL, hrplen, hdrop2,
      htake2, hsfx_len, hdec, ht]
    exact ⟨hchars, hsfxchars⟩

theorem verify_single (u : Uzid) (now : Nat) (rand : Nat → Nat)
    (hnow : now ≤ maxTimeValue)
    (hrand : ∀ i, rand i < (chars u.base).length) :
    u.verify (u.single now rand) = true := by
  have hid : u.single now rand =
      u.pfx ++ (toBaseString (now / u.scale) u.base ++ u.random rand) := by
    simp [Uzid.single, List.append_assoc]
  rw [hid]
  refine verify_append u _ _ (toBaseString_ne_nil _ _) (toBaseString_mem_chars _ _)
    (random_mem_chars u rand hrand) (random_length u rand) (now / u.scale)
    (decode_toBaseString _ _) ?_
  calc now / u.scale * u.scale ≤ now := Nat.div_mul_le_self now u.scale
    _ ≤ maxTimeValue := hnow

/-- Claim C1: for every value `v ≥ 0` and both bases, decoding the encoding
of `v` yields `v` back: `decode(encode(v, base), base) == v`. -/
theorem C1_roundtrip (v : Nat) (b : Base) :
    fromBaseString (toBaseString v b) b = some v :=
  decode_toBaseString v b

/-- Claim C9: with base 36 and the alphabet `0-9a-z`,
`encode(12345, 36)` is the string `"9ix"`. -/
theorem C9_encode_12345 : toBaseString 12345 Base.b36 = ['9', 'i', 'x'] := by
  decide

/-- Claim C2: for any generator (any prefix, base, length and precision), any
clock value `Date.now()` can return (a time value never exceeds
8,640,000,000,000,000 ms) and any run of random draws (each below
`this.chars.length`, as `Math.floor(Math.random() * this.chars.length)` is),
`verify` accepts the identifier that `single()` — and hence `generate()` —
builds. -/
theorem C2_self_verification (u : Uzid) (now : Nat) (rand : Nat → Nat)
    (hnow : now ≤ maxTimeValue)
    (hrand : ∀ i, rand i < (chars u.base).length) :
    u.verify (u.single now rand) = true :=
  verify_single u now rand hnow hrand

/-- Witness for claim C2: a concrete generator, clock value and draw run. -/
theorem C2_self_verification_witness :
    (1700000000123 ≤ maxTimeValue) ∧
      (∀ i : Nat, (fun _ : Nat => 7) i < (chars Base.b36).length) ∧
      ((⟨['t'], Base.b36, 2, none⟩ : Uzid).verify
        ((⟨['t'], Base.b36, 2, none⟩ : Uzid).single 1700000000123
          (fun _ => 7)) = true) :=
  ⟨by decide, fun _ => (by decide : (7 : Nat) < (chars Base.b36).length),
    C2_self_verification ⟨['t'], Base.b36, 2, none⟩ 1700000000123 (fun _ => 7)
      (by decide) (fun _ => (by decide : (7 : Nat) < (chars Base.b36).length))⟩

/-- Claim C10: on a candidate consisting of the prefix followed by exactly
`length ≥ 1` alphabet characters — so the timestamp part is empty — `verify`
returns true exactly when the base is 62: the base-62 decode loop maps the
empty string to 0 (a valid date), while `parseInt("", 36)` is NaN. -/
theorem C10_empty_timestamp_part (u : Uzid) (hL : 1 ≤ u.length)
    (s : List Char) (hs : s.length = u.length)
    (hall : ∀ c ∈ s, c ∈ chars u.base) :
    u.verify (u.pfx ++ s) = decide (u.base = Base.b62) := by
  have hrest : (u.pfx ++ s).drop u.pfx.length = s := List.drop_left u.pfx s
  have hlen0 : ¬ (u.pfx ++ s).length = 0 := by
    simp only [List.length_append]
    omega
  have hsw : startsWith u.pfx (u.pfx ++ s) = true := startsWith_append u.pfx s
  have hslen0 : ¬ s.length = 0 := by omega
  have hall' : s.all (fun c => (chars u.base).contains c) = true := by
    rw [List.all_eq_true]
    intro c hc
    simpa [List.contains] using hall c hc
  have hL0 : ¬ u.length = 0 := by omega
  have hdrop : s.drop (s.length - u.length) = s := by
    rw [hs, Nat.sub_self, List.drop_zero]
  have htake : s.take (s.length - u.length) = [] := by
    rw [hs, Nat.sub_self, List.take_zero]
  cases hbase : u.base with
  | b36 =>
    simp [Uzid.verify, hrest, hlen0, hsw, hslen0, hall, hall', hL0, hdrop,
      htake, hs, hbase, fromBaseString, jsParseInt36]
  | b62 =>
    simp [Uzid.verify, hrest, hlen0, hsw, hslen0, hall, hall', hL0, hdrop,
      htake, hs, hbase, fromBaseString, maxTimeValue]
    exact fun x hx => hbase ▸ hall x hx

/-- Witness for claim C10: a concrete base-62 generator and suffix-only
candidate. -/
theorem C10_empty_timestamp_part_witness :
    (1 ≤ (⟨['p'], Base.b62, 2, none⟩ : Uzid).length) ∧
      (['a', 'B'].length = (⟨['p'], Base.b62, 2, none⟩ : Uzid).length) ∧
      (∀ c ∈ ['a', 'B'], c ∈ chars Base.b62) ∧
      ((⟨['p'], Base.b62, 2, none⟩ : Uzid).verify (['p'] ++ ['a', 'B'])
        = decide ((Base.b62) = Base.b62)) :=
  ⟨by decide, by decide, by decide,
    C10_empty_timestamp_part ⟨['p'], Base.b62, 2, none⟩ (by decide) ['a', 'B']
      (by decide) (by decide)⟩

/-! ### Constructor validation -/

/-- Counterexample to claim C5: explicitly supplying precision `"s"`
(SECONDS) makes construction fail with `InvalidPrecision`, although the
claim says an explicit SECONDS precision is accepted.  (The source's own
test asserts this throw: `new Uzid({ precision: "s" }) ... toThrow`.) -/
theorem C5_cex :
    mkUzid { precision := some ['s'] } = Except.error UzidError.invalidPrecision := by
  rfl

/-- Claim C5 as amended: construction fails with `InvalidPrecision` exactly
for an explicitly supplied truthy precision other than `"ms"` — in
particular explicit `"s"` (SECONDS) is rejected, and only `"ms"`
(MILLISECONDS) can be selected explicitly; a falsy explicit value (the
empty string) counts as unspecified. -/
theorem C5_amended_precision (o : UzidOptions) :
    mkUzid o = Except.error UzidError.invalidPrecision ↔
      truthyStr o.precision = true ∧ o.precision ≠ some ['m', 's'] := by
  by_cases h : truthyStr o.precision = true ∧ o.precision ≠ some ['m', 's']
  · have hb : (truthyStr o.precision
        && !(decide (o.precision = some ['m', 's']))) = true := by
      simp [h.1, h.2]
    simp [mkUzid, hb, h]
  · have hb : (truthyStr o.precision
        && !(decide (o.precision = some ['m', 's']))) = false := by
      by_cases ht : truthyStr o.precision = true
      · have hms : o.precision = some ['m', 's'] := by tauto
        simp [hms]
      · simp [Bool.not_eq_true] at ht
        simp [ht]
    simp only [mkUzid, hb, Bool.false_eq_true, if_false]
    constructor
    · intro hc
      exfalso
      split at hc
      · exact UzidError.noConfusion (Except.error.inj hc)
      · split at hc
        · exact UzidError.noConfusion (Except.error.inj hc)
        · exact Except.noConfusion hc
    · intro hc
      exact absurd hc h

/-- Counterexample to claim C6: passing `base: 0` does not fail with
`InvalidBase` — `0` is falsy, so `options.base || 36` silently replaces it
with the default 36 and construction succeeds. -/
theorem C6_cex :
    mkUzid { base := some 0 } = Except.ok ⟨[], Base.b36, 4, none⟩ := by
  rfl

/-- Claim C6 as amended: every explicitly supplied truthy base other than 36
and 62 fails with `InvalidBase` (and no generator is produced); the falsy
base `0` instead falls back to the default 36 and construction succeeds. -/
theorem C6_amended_base (b : Int) (h36 : b ≠ 36) (h62 : b ≠ 62) (h0 : b ≠ 0)
    (p : Option (List Char)) (len : Option Rat) :
    mkUzid { pfx := p, base := some b, length := len, precision := none }
      = Except.error UzidError.invalidBase := by
  simp [mkUzid, jsOrInt, truthyStr, h0, h36, h62]

/-- Witness for the amended claim C6: base 10 is rejected. -/
theorem C6_amended_base_witness :
    ((10 : Int) ≠ 36) ∧ ((10 : Int) ≠ 62) ∧ ((10 : Int) ≠ 0) ∧
      (mkUzid { pfx := none, base := some 10, length := none, precision := none }
        = Except.error UzidError.invalidBase) :=
  ⟨by decide, by decide, by decide,
    C6_amended_base 10 (by decide) (by decide) (by decide) none none⟩

/-! ### Cross-prefix verification and batch count validation -/

/-- Counterexample to claim C7: `g1` with prefix `"ab"` and `g2` with prefix
`"a"` have different non-empty prefixes, yet `g2.verify(g1.generate())` is
true at clock 0: after stripping `"a"`, the remainder `"b0"` is alphabet-only
and decodes to a valid timestamp. -/
theorem C7_cex :
    (⟨['a'], Base.b36, 0, none⟩ : Uzid).verify
      ((⟨['a', 'b'], Base.b36, 0, none⟩ : Uzid).single 0 (fun _ => 0)) = true := by
  rfl

/-- Claim C7 as amended: for generators whose prefixes are such that neither
is a (string) prefix of the other — in particular different and non-empty —
`g2.verify` rejects everything `g1.single()`/`generate()` produces, for
every clock value and every random draw run. -/
theorem C7_amended_cross_rejection (g1 g2 : Uzid)
    (h21 : ¬ g2.pfx <+: g1.pfx) (h12 : ¬ g1.pfx <+: g2.pfx)
    (now : Nat) (rand : Nat → Nat) :
    g2.verify (g1.single now rand) = false := by
  have hpre : ¬ (g2.pfx <+: g1.single now rand) := by
    intro hp
    have h1 : g1.pfx <+: g1.single now rand := by
      simp only [Uzid.single, List.append_assoc]
      exact List.prefix_append g1.pfx _
    rcases List.prefix_or_prefix_of_prefix hp h1 with h | h
    · exact h21 h
    · exact h12 h
  have hsw : startsWith g2.pfx (g1.single now rand) = false :=
    Bool.eq_false_iff.mpr (fun h => hpre ((startsWith_iff _ _).mp h))
  simp [Uzid.verify, hsw]

/-- Witness for the amended claim C7: prefixes `"a"` and `"b"`. -/
theorem C7_amended_cross_rejection_witness :
    (¬ (⟨['b'], Base.b36, 0, none⟩ : Uzid).pfx
        <+: (⟨['a'], Base.b36, 0, none⟩ : Uzid).pfx) ∧
      (¬ (⟨['a'], Base.b36, 0, none⟩ : Uzid).pfx
        <+: (⟨['b'], Base.b36, 0, none⟩ : Uzid).pfx) ∧
      ((⟨['b'], Base.b36, 0, none⟩ : Uzid).verify
        ((⟨['a'], Base.b36, 0, none⟩ : Uzid).single 0 (fun _ => 0)) = false) :=
  ⟨by decide, by decide,
    C7_amended_cross_rejection ⟨['a'], Base.b36, 0, none⟩ ⟨['b'], Base.b36, 0, none⟩
      (by decide) (by decide) 0 (fun _ => 0)⟩

/-- Claim C8: the batch entry points `multiple(count)` and `generate(count)`
raise `InvalidCount` exactly when `count` is not an integer or is below 2,
and an error result carries no identifiers. -/
theorem C8_invalid_count_iff (u : Uzid) (c : Rat) (nows : Nat → Nat)
    (rands : Nat → Nat → Nat) (fuel : Nat) :
    (u.multiple c nows rands fuel = Except.error UzidError.invalidCount
        ↔ (c.den ≠ 1 ∨ c < 2))
      ∧ (u.generate (some c) nows rands fuel = Except.error UzidError.invalidCount
        ↔ (c.den ≠ 1 ∨ c < 2)) := by
  by_cases h : ¬ (c.den = 1) ∨ c < 2
  · simp [Uzid.multiple, Uzid.generate, h, Except.map]
  · simp [Uzid.multiple, Uzid.generate, h, Except.map]

/-! ### Batch generation: distinctness, count and order -/

theorem setAdd_nodup (s : List (List Char)) (a : List Char) (h : s.Nodup) :
    (setAdd s a).Nodup := by
  unfold setAdd
  split
  · exact h
  · next ha => simp [List.nodup_append, h, ha]

theorem setAdd_length_le (s : List (List Char)) (a : List Char) :
    (setAdd s a).length ≤ s.length + 1 := by
  unfold setAdd
  split
  · exact Nat.le_succ _
  · simp

theorem multipleLoop_spec (gen : Nat → List Char) (count : Nat) :
    ∀ fuel i s r, s.Nodup → s.length ≤ count →
      multipleLoop gen count fuel i s = some r →
      r.Nodup ∧ r.length = count := by
  intro fuel
  induction fuel with
  | zero =>
    intro i s r hnd hle hr
    unfold multipleLoop at hr
    split at hr
    · next hc =>
      cases hr
      exact ⟨hnd, Nat.le_antisymm hle hc⟩
    · exact Option.noConfusion hr
  | succ fuel ih =>
    intro i s r hnd hle hr
    unfold multipleLoop at hr
    split at hr
    · next hc =>
      cases hr
      exact ⟨hnd, Nat.le_antisymm hle hc⟩
    · next hc =>
      refine ih (i + 1) _ r (setAdd_nodup _ _ hnd) ?_ hr
      have h1 := setAdd_length_le s (gen i)
      omega

theorem sortJS_sorted (l : List (List Char)) : (sortJS l).Sorted (· ≤ ·) :=
  List.sorted_insertionSort (· ≤ ·) l

theorem sortJS_perm (l : List (List Char)) : List.Perm (sortJS l) l :=
  List.perm_insertionSort (· ≤ ·) l

/-- Claim C3: whenever the batch loop of `multiple(n)`/`generate(n)`
terminates (returns within some iteration bound), the result is exactly `n`
identifier strings, pairwise distinct, sorted ascending in the lexicographic
order on strings. -/
theorem C3_batch_distinct_sorted (u : Uzid) (n : Nat) (h2 : 2 ≤ n)
    (nows : Nat → Nat) (rands : Nat → Nat → Nat) (fuel : Nat)
    (res : List (List Char))
    (hok : u.multiple (n : Rat) nows rands fuel = Except.ok (some res)) :
    res.length = n ∧ res.Nodup ∧ res.Sorted (· ≤ ·) := by
  have hden : ((n : Rat)).den = 1 := Rat.den_natCast n
  have hlt : ¬ ((n : Rat) < 2) := by
    rw [not_lt]
    exact_mod_cast h2
  have hc : ¬ (¬ ((n : Rat).den = 1) ∨ (n : Rat) < 2) := by
    rintro (h1 | h1)
    · exact h1 hden
    · exact hlt h1
  unfold Uzid.multiple at hok
  rw [if_neg hc] at hok
  have hok' := Except.ok.inj hok
  rcases Option.map_eq_some'.mp hok' with ⟨s, hs, rfl⟩
  have hnum : ((n : Rat)).num.toNat = n := by
    rw [Rat.num_natCast]
    exact Int.toNat_natCast n
  rw [hnum] at hs
  obtain ⟨hnd, hlen⟩ := multipleLoop_spec _ n fuel 0 [] s List.nodup_nil
    (by simp) hs
  exact ⟨(sortJS_perm s).length_eq.trans hlen,
    ((sortJS_perm s).nodup_iff).mpr hnd, sortJS_sorted s⟩

/-- Witness for claim C3: a batch of 2 from a generator with no prefix and
no random suffix, at clocks 0 ms and 1000 ms. -/
theorem C3_batch_distinct_sorted_witness :
    (2 ≤ 2) ∧
      ((⟨[], Base.b36, 0, none⟩ : Uzid).multiple ((2 : Nat) : Rat)
          (fun i => i * 1000) (fun _ _ => 0) 2
        = Except.ok (some [['0'], ['1']])) ∧
      ([['0'], ['1']].length = 2 ∧ ([['0'], ['1']] : List (List Char)).Nodup ∧
        List.Sorted (· ≤ ·) ([['0'], ['1']] : List (List Char))) :=
  ⟨by decide, by rfl,
    C3_batch_distinct_sorted ⟨[], Base.b36, 0, none⟩ 2 (by decide)
      (fun i => i * 1000) (fun _ _ => 0) 2 [['0'], ['1']] (by rfl)⟩

/-! ### Sortability of encodings over time -/

theorem foldl_digits_acc (b : Nat) :
    ∀ (l : List Nat) (acc : Nat),
      l.foldl (fun a d => a * b + d) acc = acc * b ^ l.length + ofDigitsBE b l := by
  intro l
  induction l with
  | nil => intro acc; simp [ofDigitsBE]
  | cons d r ih =>
    intro acc
    show List.foldl _ (acc * b + d) r = _
    rw [ih (acc * b + d)]
    have hv : ofDigitsBE b (d :: r) = d * b ^ r.length + ofDigitsBE b r := by
      show List.foldl _ (0 * b + d) r = _
      rw [ih (0 * b + d)]
      ring
    rw [hv, List.length_cons]
    ring

theorem ofDigitsBE_cons (b d : Nat) (l : List Nat) :
    ofDigitsBE b (d :: l) = d * b ^ l.length + ofDigitsBE b l := by
  show List.foldl _ (0 * b + d) l = _
  rw [foldl_digits_acc b l (0 * b + d)]
  ring

theorem ofDigitsBE_lt_pow (b : Nat) :
    ∀ l : List Nat, (∀ d ∈ l, d < b) → ofDigitsBE b l < b ^ l.length := by
  intro l
  induction l with
  | nil => intro _; simp [ofDigitsBE]
  | cons d r ih =>
    intro h
    rw [ofDigitsBE_cons, List.length_cons]
    have hd : d < b := h d (by simp)
    have hr : ofDigitsBE b r < b ^ r.length := ih (fun x hx => h x (by simp [hx]))
    calc d * b ^ r.length + ofDigitsBE b r
        < d * b ^ r.length + b ^ r.length := by omega
      _ = (d + 1) * b ^ r.length := by ring
      _ ≤ b * b ^ r.length := Nat.mul_le_mul_right _ hd
      _ = b ^ (r.length + 1) := by ring

theorem lex_of_value_lt (b : Nat) :
    ∀ l1 l2 : List Nat, l1.length = l2.length →
      (∀ d ∈ l1, d < b) → (∀ d ∈ l2, d < b) →
      ofDigitsBE b l1 < ofDigitsBE b l2 →
      List.Lex (· < ·) l1 l2 := by
  intro l1
  induction l1 with
  | nil =>
    intro l2 hlen _ _ hv
    cases l2 with
    | nil => exact absurd hv (by simp)
    | cons d2 r2 => simp at hlen
  | cons d1 r1 ih =>
    intro l2 hlen h1 h2 hv
    cases l2 with
    | nil => simp at hlen
    | cons d2 r2 =>
      have hlen' : r1.length = r2.length := by simpa using hlen
      rcases Nat.lt_trichotomy d1 d2 with h | h | h
      · exact List.Lex.rel h
      · subst h
        apply List.Lex.cons
        apply ih r2 hlen' (fun x hx => h1 x (by simp [hx]))
          (fun x hx => h2 x (by simp [hx]))
        rw [ofDigitsBE_cons, ofDigitsBE_cons, hlen'] at hv
        omega
      · exfalso
        have hv1 : ofDigitsBE b r2 < b ^ r2.length :=
          ofDigitsBE_lt_pow b r2 (fun x hx => h2 x (by simp [hx]))
        rw [ofDigitsBE_cons, ofDigitsBE_cons, hlen'] at hv
        have hd : d2 + 1 ≤ d1 := h
        have hmul : (d2 + 1) * b ^ r2.length ≤ d1 * b ^ r2.length :=
          Nat.mul_le_mul_right _ hd
        have hexp : (d2 + 1) * b ^ r2.length = d2 * b ^ r2.length + b ^ r2.length := by
          ring
        omega

theorem char36_lt :
    ∀ d2, d2 < 36 → ∀ d1, d1 < d2 →
      (chars Base.b36).getD d1 ' ' < (chars Base.b36).getD d2 ' ' := by
  decide

theorem lex_map_char36 :
    ∀ l1 l2 : List Nat, (∀ d ∈ l1, d < 36) → (∀ d ∈ l2, d < 36) →
      List.Lex (· < ·) l1 l2 →
      List.Lex (· < ·) (l1.map (fun d => (chars Base.b36).getD d ' '))
        (l2.map (fun d => (chars Base.b36).getD d ' ')) := by
  intro l1
  induction l1 with
  | nil =>
    intro l2 _ _ h
    cases l2 with
    | nil => cases h
    | cons d2 r2 => exact List.Lex.nil
  | cons d1 r1 ih =>
    intro l2 h1 h2 h
    cases l2 with
    | nil => cases h
    | cons d2 r2 =>
      cases h with
      | cons h' =>
        exact List.Lex.cons (ih r2 (fun x hx => h1 x (by simp [hx]))
          (fun x hx => h2 x (by simp [hx])) h')
      | rel hr =>
        exact List.Lex.rel (char36_lt d2 (h2 d2 (by simp)) d1 hr)

theorem lex_append_same_length {r : Char → Char → Prop} :
    ∀ (l1 l2 s1 s2 : List Char), l1.length = l2.length →
      List.Lex r l1 l2 → List.Lex r (l1 ++ s1) (l2 ++ s2) := by
  intro l1
  induction l1 with
  | nil =>
    intro l2 s1 s2 hlen h
    cases l2 with
    | nil => cases h
    | cons d2 r2 => simp at hlen
  | cons a t1 ih =>
    intro l2 s1 s2 hlen h
    cases l2 with
    | nil => cases h
    | cons b t2 =>
      cases h with
      | cons h' =>
        exact List.Lex.cons (ih t2 s1 s2 (by simpa using hlen) h')
      | rel hr => exact List.Lex.rel hr

/-- Counterexample to claim C4: with base 62 and MILLISECONDS precision, the
timestamps 10 ms and 36 ms encode to the same digit length (1), yet the
later identifier is NOT lexicographically greater: the alphabet
`0-9a-zA-Z` is not ordered by character code (`'a' > 'A'`), so `"a" < "A"`
fails.  The claim holds for base 36 but not for base 62. -/
theorem C4_cex :
    (toBaseString (10 / 1) Base.b62).length
        = (toBaseString (36 / 1) Base.b62).length ∧
      (10 : Nat) < 36 ∧
      ¬ ((⟨[], Base.b62, 0, some ['m', 's']⟩ : Uzid).single 10 (fun _ => 0) <
         (⟨[], Base.b62, 0, some ['m', 's']⟩ : Uzid).single 36 (fun _ => 0)) := by
  refine ⟨by decide, by decide, ?_⟩
  intro h
  exact absurd h (by decide)

/-- Claim C4 as amended: for a MILLISECONDS-precision generator with base 36
(whose alphabet `0-9a-z` is ordered by character code), identifiers built at
two distinct timestamps whose encodings have the same digit length are
strictly ordered in time order, whatever the random suffixes; for base 62
this fails (see the counterexample). -/
theorem C4_amended_sortable_ms_b36 (u : Uzid) (hb : u.base = Base.b36)
    (hms : u.precision = some ['m', 's'])
    (now1 now2 : Nat) (h12 : now1 < now2)
    (hlen : (toBaseString now1 Base.b36).length
      = (toBaseString now2 Base.b36).length)
    (r1 r2 : Nat → Nat) :
    u.single now1 r1 < u.single now2 r2 := by
  have hscale : u.scale = 1 := by simp [Uzid.scale, hms]
  have hid1 : u.single now1 r1
      = u.pfx ++ (toBaseString now1 Base.b36 ++ u.random r1) := by
    simp [Uzid.single, hscale, hb, List.append_assoc]
  have hid2 : u.single now2 r2
      = u.pfx ++ (toBaseString now2 Base.b36 ++ u.random r2) := by
    simp [Uzid.single, hscale, hb, List.append_assoc]
  have hdlen : (digitsOf Base.b36 now1).length = (digitsOf Base.b36 now2).length := by
    have h := hlen
    rw [toBaseString_eq_map, toBaseString_eq_map] at h
    simpa using h
  have hval : ofDigitsBE 36 (digitsOf Base.b36 now1)
      < ofDigitsBE 36 (digitsOf Base.b36 now2) := by
    have h1 := digitsOf_value Base.b36 now1
    have h2 := digitsOf_value Base.b36 now2
    simp only [Base.val] at h1 h2
    rw [h1, h2]
    exact h12
  have hlex : List.Lex (· < ·) (digitsOf Base.b36 now1) (digitsOf Base.b36 now2) :=
    lex_of_value_lt 36 _ _ hdlen
      (by simpa [Base.val] using digitsOf_lt Base.b36 now1)
      (by simpa [Base.val] using digitsOf_lt Base.b36 now2) hval
  have henc : List.Lex (· < ·) (toBaseString now1 Base.b36)
      (toBaseString now2 Base.b36) := by
    rw [toBaseString_eq_map, toBaseString_eq_map]
    exact lex_map_char36 _ _
      (by simpa [Base.val] using digitsOf_lt Base.b36 now1)
      (by simpa [Base.val] using digitsOf_lt Base.b36 now2) hlex
  rw [hid1, hid2]
  show List.Lex (· < ·) _ _
  exact List.Lex.append_left _
    (lex_append_same_length _ _ _ _ hlen henc) u.pfx

/-- Witness for the amended claim C4: timestamps 100 ms and 101 ms, both
encoding to two base-36 digits. -/
theorem C4_amended_sortable_ms_b36_witness :
    ((⟨['i', 'd'], Base.b36, 3, some ['m', 's']⟩ : Uzid).base = Base.b36) ∧
      ((⟨['i', 'd'], Base.b36, 3, some ['m', 's']⟩ : Uzid).precision
        = some ['m', 's']) ∧
      ((100 : Nat) < 101) ∧
      ((toBaseString 100 Base.b36).length = (toBaseString 101 Base.b36).length) ∧
      ((⟨['i', 'd'], Base.b36, 3, some ['m', 's']⟩ : Uzid).single 100 (fun _ => 9) <
        (⟨['i', 'd'], Base.b36, 3, some ['m', 's']⟩ : Uzid).single 101 (fun _ => 2)) :=
  ⟨rfl, rfl, by decide, by decide,
    C4_amended_sortable_ms_b36 ⟨['i', 'd'], Base.b36, 3, some ['m', 's']⟩ rfl rfl
      100 101 (by decide) (by decide) (fun _ => 9) (fun _ => 2)⟩
